import Mathlib

/-!
Verification of `taichi/transforms/optimize_local_variable.cpp`.

The file embeds the IR fragment the pass inspects, the per-alloca analyzer
(`AllocaOptimize`), its transformation actions, and the fixed-point driver
(`AllocaFindAndOptimize`), and proves the specification claims about them.

Modelling conventions:
- statement identity (C++ pointer equality, `instance_id`) is a natural number
  id; weak back-references (`last_store`, `last_atomic`) hold ids;
- the analyzer's abort-on-mutation exception `IRModified` is the `modified`
  constructor of an explicit result type; the mutation itself is reified as a
  `Mutation` value and applied to the tree by `applyMutation`, which performs
  exactly the block edits the C++ does before throwing;
- an absent sub-block (null `true_statements` / `false_statements`) is the
  empty block: visiting either leaves the analyzer state unchanged;
- the driver's unbounded `while (true)` retry loop takes explicit fuel.
-/

namespace AllocaOpt

/-- Statement id, standing for C++ statement identity (`instance_id`). -/
abbrev SId := Nat

/-- One lane of a `LocalLoadStmt` pointer (`LocalAddress`): which alloca the
lane reads and at which offset. -/
structure LaneRef where
  var : SId
  offset : Nat
deriving DecidableEq, Repr

/-- IR statements, restricted to the kinds `optimize_local_variable.cpp`
distinguishes. `other` stands for any further non-container statement kind,
carrying its operand ids; the pass handles those with its generic
`visit(Stmt *)`, which ignores them. -/
inductive Stmt where
  | alloca (id : SId) (ty : Nat) (width : Nat)
  | localStore (id : SId) (ptr : SId) (data : SId)
  | localLoad (id : SId) (ptr : List LaneRef)
  | atomicOp (id : SId) (dest : SId) (val : SId)
  | constStmt (id : SId) (ty : Nat) (width : Nat)
  | ifStmt (id : SId) (cond : SId) (tb : List Stmt) (fb : List Stmt)
  | whileStmt (id : SId) (body : List Stmt)
  | rangeFor (id : SId) (loopVar : SId) (lo : SId) (hi : SId) (body : List Stmt)
  | structFor (id : SId) (loopVars : List SId) (body : List Stmt)
  | other (id : SId) (ops : List SId)

/-- Blocks are ordered statement sequences. -/
abbrev Block := List Stmt

/-- Identity of a statement. -/
def Stmt.sid : Stmt → SId
  | .alloca i _ _ => i
  | .localStore i _ _ => i
  | .localLoad i _ => i
  | .atomicOp i _ _ => i
  | .constStmt i _ _ => i
  | .ifStmt i _ _ _ => i
  | .whileStmt i _ => i
  | .rangeFor i _ _ _ _ => i
  | .structFor i _ _ => i
  | .other i _ => i

/-- Direct operand ids of a statement (the references `Stmt::have_operand`
inspects); bodies of container statements are not operands. -/
def Stmt.operands : Stmt → List SId
  | .alloca _ _ _ => []
  | .localStore _ p d => [p, d]
  | .localLoad _ ptr => ptr.map LaneRef.var
  | .atomicOp _ d v => [d, v]
  | .constStmt _ _ _ => []
  | .ifStmt _ c _ _ => [c]
  | .whileStmt _ _ => []
  | .rangeFor _ lv lo hi _ => [lv, lo, hi]
  | .structFor _ lvs _ => lvs
  | .other _ ops => ops

mutual

/-- Does statement `s`, or any statement nested inside it, have the statement
with id `i` as an operand? Together with `anyUseB` this is
`irpass::analysis::gather_statements(block, have_operand(i)).empty()` negated. -/
def anyUseS (i : SId) (s : Stmt) : Bool :=
  match s with
  | .ifStmt _ c tb fb => (c == i) || anyUseB i tb || anyUseB i fb
  | .whileStmt _ body => anyUseB i body
  | .rangeFor _ lv lo hi body =>
      (lv == i) || (lo == i) || (hi == i) || anyUseB i body
  | .structFor _ lvs body => lvs.contains i || anyUseB i body
  | s => s.operands.contains i

/-- Does any statement in the block subtree have id `i` as an operand? -/
def anyUseB (i : SId) (b : Block) : Bool :=
  match b with
  | [] => false
  | x :: xs => anyUseS i x || anyUseB i xs

end

mutual

/-- Number of alloca/store/load/atomic statements in the subtree of one
statement: the measure for the termination argument. -/
def countS : Stmt → Nat
  | .alloca _ _ _ => 1
  | .localStore _ _ _ => 1
  | .localLoad _ _ => 1
  | .atomicOp _ _ _ => 1
  | .constStmt _ _ _ => 0
  | .ifStmt _ _ tb fb => countB tb + countB fb
  | .whileStmt _ body => countB body
  | .rangeFor _ _ _ _ body => countB body
  | .structFor _ _ body => countB body
  | .other _ _ => 0

/-- Number of alloca/store/load/atomic statements in a block subtree. -/
def countB : Block → Nat
  | [] => 0
  | x :: xs => countS x + countB xs

end

mutual

/-- Largest id appearing in a statement subtree (ids and operand ids). -/
def maxIdS (s : Stmt) : Nat :=
  match s with
  | .ifStmt i c tb fb => max (max i c) (max (maxIdB tb) (maxIdB fb))
  | .whileStmt i body => max i (maxIdB body)
  | .rangeFor i lv lo hi body => max (max (max i lv) (max lo hi)) (maxIdB body)
  | .structFor i lvs body => max (lvs.foldr max i) (maxIdB body)
  | s => s.operands.foldr max s.sid

/-- Largest id appearing in a block subtree. -/
def maxIdB : Block → Nat
  | [] => 0
  | x :: xs => max (maxIdS x) (maxIdB xs)

end

mutual

/-- Erase every statement with id `i` from the bodies nested in `s`
(`Block::erase`; in well-formed trees ids are unique, so this is the single
identity-based erasure the C++ performs). -/
def eraseS (i : SId) (s : Stmt) : Stmt :=
  match s with
  | .ifStmt j c tb fb => .ifStmt j c (eraseB i tb) (eraseB i fb)
  | .whileStmt j body => .whileStmt j (eraseB i body)
  | .rangeFor j lv lo hi body => .rangeFor j lv lo hi (eraseB i body)
  | .structFor j lvs body => .structFor j lvs (eraseB i body)
  | s => s

/-- Erase every statement with id `i` from a block subtree. -/
def eraseB (i : SId) (b : Block) : Block :=
  match b with
  | [] => []
  | x :: xs => if x.sid == i then eraseB i xs else eraseS i x :: eraseB i xs

end

/-- Replace an operand id (`Stmt::replace_with` on uses). -/
def substOp (o n i : SId) : SId := if i == o then n else i

mutual

/-- Replace every operand reference `o` by `n` in a statement subtree
(`IRNode`-wide `replace_with(old, new)` on uses). -/
def substS (o n : SId) (s : Stmt) : Stmt :=
  match s with
  | .alloca j t w => .alloca j t w
  | .localStore j p d => .localStore j (substOp o n p) (substOp o n d)
  | .localLoad j ptr =>
      .localLoad j (ptr.map fun r => ⟨substOp o n r.var, r.offset⟩)
  | .atomicOp j d v => .atomicOp j (substOp o n d) (substOp o n v)
  | .constStmt j t w => .constStmt j t w
  | .ifStmt j c tb fb => .ifStmt j (substOp o n c) (substB o n tb) (substB o n fb)
  | .whileStmt j body => .whileStmt j (substB o n body)
  | .rangeFor j lv lo hi body =>
      .rangeFor j (substOp o n lv) (substOp o n lo) (substOp o n hi) (substB o n body)
  | .structFor j lvs body => .structFor j (lvs.map (substOp o n)) (substB o n body)
  | .other j ops => .other j (ops.map (substOp o n))

/-- Replace every operand reference `o` by `n` in a block subtree. -/
def substB (o n : SId) (b : Block) : Block :=
  match b with
  | [] => []
  | x :: xs => substS o n x :: substB o n xs

end

mutual

/-- Replace, inside the bodies nested in `s`, every statement with id `lid` by
a fresh zero constant with id `z`, type `ty` and lane width `w` (net effect of
`insert_after_me(ConstStmt) ; replace_with ; erase` in the zero-fold action). -/
def replS (lid : SId) (z ty w : Nat) (s : Stmt) : Stmt :=
  match s with
  | .ifStmt j c tb fb => .ifStmt j c (replB lid z ty w tb) (replB lid z ty w fb)
  | .whileStmt j body => .whileStmt j (replB lid z ty w body)
  | .rangeFor j lv lo hi body => .rangeFor j lv lo hi (replB lid z ty w body)
  | .structFor j lvs body => .structFor j lvs (replB lid z ty w body)
  | s => s

/-- Replace every statement with id `lid` in a block subtree by the zero
constant `constStmt z ty w`, keeping its position. -/
def replB (lid : SId) (z ty w : Nat) (b : Block) : Block :=
  match b with
  | [] => []
  | x :: xs =>
      if x.sid == lid then Stmt.constStmt z ty w :: replB lid z ty w xs
      else replS lid z ty w x :: replB lid z ty w xs

end

mutual

/-- Occurrence of statement `y` in the subtree of statement `x` (as `x` itself
or nested in one of its bodies). -/
def occS (y x : Stmt) : Prop :=
  y = x ∨
  match x with
  | .ifStmt _ _ tb fb => occB y tb ∨ occB y fb
  | .whileStmt _ body => occB y body
  | .rangeFor _ _ _ _ body => occB y body
  | .structFor _ _ body => occB y body
  | _ => False

/-- Occurrence of statement `y` in a block subtree. -/
def occB (y : Stmt) (b : Block) : Prop :=
  match b with
  | [] => False
  | x :: xs => occS y x ∨ occB y xs

end

/-- Loop context tag of the analyzer (`AllocaOptimize::IsInsideLoop`). -/
inductive LoopTag where
  | outsideLoop
  | insideMayHaveStores
  | insideNoStores
deriving DecidableEq, Repr

/-- Weak reference to a `LocalStoreStmt`: its id and the id of its `data`
operand (all the analyzer ever reads through `last_store`). -/
structure StoreRef where
  sid : SId
  data : SId
deriving DecidableEq, Repr

/-- Analyzer state (the data members of `AllocaOptimize`). -/
structure AState where
  stored : Bool
  loaded : Bool
  last_store : Option StoreRef
  last_store_valid : Bool
  last_store_loaded : Bool
  last_atomic : Option SId
  last_atomic_eliminable : Bool
  is_inside_loop : LoopTag
deriving DecidableEq, Repr

/-- Constructor state of `AllocaOptimize`. -/
def initState : AState :=
  { stored := false, loaded := false, last_store := none, last_store_valid := false,
    last_store_loaded := false, last_atomic := none, last_atomic_eliminable := false,
    is_inside_loop := .outsideLoop }

/-- Transformation actions: each constructor is one of the pass's IR mutations,
thrown as `IRModified` right after being applied. -/
inductive Mutation where
  | zeroFold (loadId : SId) (ty : Nat) (width : Nat)
  | forward (loadId : SId) (dataId : SId)
  | eraseStore (sid : SId)
  | eraseAtomic (sid : SId)
  | eraseAlloca (sid : SId)
deriving DecidableEq, Repr

/-- Result of walking a region: either the walk aborted with a mutation
(`throw IRModified`) or it completed with a final analyzer state. -/
inductive WRes where
  | modified (m : Mutation)
  | done (s : AState)
deriving DecidableEq, Repr

/-- Sequencing of walk steps: a raised `IRModified` propagates. -/
def WRes.bind : WRes → (AState → WRes) → WRes
  | .modified m, _ => .modified m
  | .done s, f => f s

/-- Visit of `AtomicOpStmt` (lines 68-78). -/
def visitAtomicOp (a : SId) (s : AState) (i dest : SId) : AState :=
  if dest = a then
    { s with stored := true, loaded := true, last_store := none,
             last_store_valid := false, last_store_loaded := false,
             last_atomic := some i, last_atomic_eliminable := true }
  else s

/-- Visit of `LocalStoreStmt` (lines 80-89). -/
def visitLocalStore (a : SId) (s : AState) (i p d : SId) : AState :=
  if p = a then
    { s with stored := true, last_store := some ⟨i, d⟩, last_store_valid := true,
             last_store_loaded := false, last_atomic := none,
             last_atomic_eliminable := false }
  else s

/-- Is a load regular for alloca `a`: every lane `l` reads `a` at offset `l`? -/
def loadRegular (a : SId) (ptr : List LaneRef) : Bool :=
  ptr.enum.all fun p => (p.2.offset == p.1) && (p.2.var == a)

/-- Does any lane of the load read alloca `a`? -/
def loadTouches (a : SId) (ptr : List LaneRef) : Bool :=
  ptr.any fun r => r.var == a

/-- Flag updates of the lane loop in `visit(LocalLoadStmt)` (lines 93-104):
when some lane reads the alloca, the slot is loaded, a pending last store is
marked loaded, and a pending last atomic is no longer eliminable. -/
def loadFlagUpdate (a : SId) (s : AState) (ptr : List LaneRef) : AState :=
  if loadTouches a ptr then
    { s with loaded := true,
             last_store_loaded := s.last_store_loaded || s.last_store.isSome,
             last_atomic_eliminable :=
               s.last_atomic_eliminable && !s.last_atomic.isSome }
  else s

/-- Visit of `LocalLoadStmt` (lines 91-122): flag updates for lanes touching
the alloca, then the zero-fold action, then the store-forwarding action. -/
def visitLocalLoad (a : SId) (ty : Nat) (s : AState) (i : SId)
    (ptr : List LaneRef) : WRes :=
  let s := loadFlagUpdate a s ptr
  if loadRegular a ptr = false then .done s
  else if s.stored = false ∧ s.is_inside_loop ≠ .insideMayHaveStores then
    .modified (.zeroFold i ty ptr.length)
  else if s.last_store_valid = true then
    match s.last_store with
    | some r => .modified (.forward i r.data)
    | none => .done s
  else .done s

/-- Merge of the two branch states of an `IfStmt` into the pre-branch state
(lines 138-212). -/
def mergeIf (pre t f : AState) : AState :=
  let stored := t.stored || f.stored
  let loaded := t.loaded || f.loaded
  let sPart : Option StoreRef × Bool × Bool :=
    if stored = false then
      (pre.last_store, pre.last_store_valid, pre.last_store_loaded)
    else if t.last_store_valid = true ∧ f.last_store_valid = true ∧
            t.last_store = f.last_store then
      if pre.last_store = t.last_store then
        (pre.last_store, true,
         pre.last_store_loaded || t.last_store_loaded || f.last_store_loaded)
      else
        (t.last_store, true, t.last_store_loaded || f.last_store_loaded)
    else if t.last_store = pre.last_store ∧ f.last_store = pre.last_store then
      (pre.last_store, false,
       pre.last_store_loaded || t.last_store_loaded || f.last_store_loaded)
    else if t.last_store ≠ pre.last_store ∧ t.last_store ≠ none ∧
            t.last_store_loaded = false then
      (t.last_store, false, false)
    else if f.last_store ≠ pre.last_store ∧ f.last_store ≠ none ∧
            f.last_store_loaded = false then
      (f.last_store, false, false)
    else (none, false, false)
  let aPart : Option SId × Bool :=
    if t.last_atomic = pre.last_atomic ∧ f.last_atomic = pre.last_atomic then
      (pre.last_atomic,
       pre.last_atomic_eliminable && t.last_atomic_eliminable &&
         f.last_atomic_eliminable)
    else if t.last_atomic ≠ pre.last_atomic ∧ t.last_atomic ≠ none ∧
            t.last_atomic_eliminable = true then
      (t.last_atomic, true)
    else if f.last_atomic ≠ pre.last_atomic ∧ f.last_atomic ≠ none ∧
            f.last_atomic_eliminable = true then
      (f.last_atomic, true)
    else (none, false)
  { pre with stored := stored, loaded := loaded,
             last_store := sPart.1, last_store_valid := sPart.2.1,
             last_store_loaded := sPart.2.2,
             last_atomic := aPart.1, last_atomic_eliminable := aPart.2 }

/-- Fresh analyzer state for a loop body walk (lines 228-233). -/
def loopInitState (s : AState) : AState :=
  { initState with is_inside_loop :=
      if s.is_inside_loop = .insideNoStores then .insideNoStores
      else .insideMayHaveStores }

/-- Condition for the second, store-free-tagged body walk (lines 248-257);
`s1` is the outer state after the `stored`/`loaded` merge. -/
def needSecondWalk (s1 loop : AState) (isLoopVar : Bool) : Bool :=
  !isLoopVar && !loop.stored && loop.loaded &&
  decide (s1.is_inside_loop ≠ .insideNoStores) &&
  ((!s1.stored && decide (s1.is_inside_loop ≠ .insideMayHaveStores)) ||
    s1.last_store_valid)

/-- Merge of a loop body result into the outer state (lines 239-275, after the
`stored`/`loaded` merge already recorded in `s1`). -/
def loopMerge (s1 loop : AState) (isLoopVar : Bool) : AState :=
  if isLoopVar then
    { s1 with stored := true, loaded := true, last_store := none,
              last_store_valid := false, last_store_loaded := false,
              last_atomic := none, last_atomic_eliminable := false }
  else if loop.stored = false then s1
  else
    { s1 with last_store := loop.last_store, last_store_valid := false,
              last_atomic := loop.last_atomic,
              last_store_loaded := loop.loaded,
              last_atomic_eliminable := !loop.loaded }

mutual

/-- Forward walk of one statement (`AllocaOptimize::visit` overloads), for the
alloca with id `a` of declared type `ty`. -/
def walkStmt (a : SId) (ty : Nat) (s : AState) (st : Stmt) : WRes :=
  match st with
  | .alloca _ _ _ => .done s
  | .constStmt _ _ _ => .done s
  | .other _ _ => .done s
  | .localStore i p d => .done (visitLocalStore a s i p d)
  | .atomicOp i dst _ => .done (visitAtomicOp a s i dst)
  | .localLoad i ptr => visitLocalLoad a ty s i ptr
  | .ifStmt _ _ tb fb =>
      (walkBlock a ty s tb).bind fun tRes =>
      (walkBlock a ty s fb).bind fun fRes =>
      .done (mergeIf s tRes fRes)
  | .whileStmt _ body =>
      (walkBlock a ty (loopInitState s) body).bind fun loop =>
      let s1 := { s with stored := s.stored || loop.stored,
                         loaded := s.loaded || loop.loaded }
      if needSecondWalk s1 loop false then
        (walkBlock a ty { s1 with is_inside_loop := .insideNoStores } body).bind
          fun _ => .done (loopMerge s1 loop false)
      else .done (loopMerge s1 loop false)
  | .rangeFor _ lv _ _ body =>
      (walkBlock a ty (loopInitState s) body).bind fun loop =>
      let s1 := { s with stored := s.stored || loop.stored,
                         loaded := s.loaded || loop.loaded }
      if needSecondWalk s1 loop (lv == a) then
        (walkBlock a ty { s1 with is_inside_loop := .insideNoStores } body).bind
          fun _ => .done (loopMerge s1 loop (lv == a))
      else .done (loopMerge s1 loop (lv == a))
  | .structFor _ lvs body =>
      (walkBlock a ty (loopInitState s) body).bind fun loop =>
      let s1 := { s with stored := s.stored || loop.stored,
                         loaded := s.loaded || loop.loaded }
      if needSecondWalk s1 loop (lvs.contains a) then
        (walkBlock a ty { s1 with is_inside_loop := .insideNoStores } body).bind
          fun _ => .done (loopMerge s1 loop (lvs.contains a))
      else .done (loopMerge s1 loop (lvs.contains a))

/-- Forward walk of a statement sequence (`AllocaOptimize::visit(Block *)`). -/
def walkBlock (a : SId) (ty : Nat) (s : AState) (b : Block) : WRes :=
  match b with
  | [] => .done s
  | x :: xs => (walkStmt a ty s x).bind fun s' => walkBlock a ty s' xs

end

/-- Result of one `AllocaOptimize::run`: a thrown mutation or a clean finish. -/
inductive RRes where
  | modified (m : Mutation)
  | clean
deriving DecidableEq, Repr

/-- The alloca being optimized: its id, declared data type and lane width. -/
structure AllocaInfo where
  sid : SId
  ty : Nat
  width : Nat
deriving DecidableEq, Repr

/-- Final stage of `AllocaOptimize::run` (lines 326-333): erase the alloca
when it is never stored and never loaded. -/
def runTailAlloca (a : AllocaInfo) (s : AState) : RRes :=
  if s.stored = false ∧ s.loaded = false then .modified (.eraseAlloca a.sid)
  else .clean

/-- Middle stage of `AllocaOptimize::run` (lines 313-325): erase an eliminable
last atomic op if nothing in the alloca's parent block subtree uses it. -/
def runTailAtomic (a : AllocaInfo) (parent : Block) (s : AState) : RRes :=
  match s.last_atomic with
  | some aid =>
      if s.last_atomic_eliminable = true then
        if anyUseB aid parent = false then .modified (.eraseAtomic aid)
        else runTailAlloca a s
      else runTailAlloca a s
  | none => runTailAlloca a s

/-- First stage of the eliminations in `AllocaOptimize::run` (lines 306-312):
erase a never-loaded last store, else fall through to the atomic stage. -/
def runTailStore (a : AllocaInfo) (parent : Block) (s : AState) : RRes :=
  match s.last_store with
  | some r =>
      if s.last_store_loaded = false then .modified (.eraseStore r.sid)
      else runTailAtomic a parent s
  | none => runTailAtomic a parent s

/-- The whole `AllocaOptimize::run` (lines 298-334): walk the statements after
the alloca in its parent block, then try dead-store, dead-atomic and
dead-declaration elimination in that order. -/
def runAlloca (a : AllocaInfo) (parent after : Block) : RRes :=
  match walkBlock a.sid a.ty initState after with
  | .modified m => .modified m
  | .done s => runTailStore a parent s

/-- Fresh id for an inserted constant (`Stmt::make` allocates a new id). -/
def freshId (t : Block) : SId := maxIdB t + 1

/-- Apply one transformation action to the tree: exactly the block edits the
C++ performs right before throwing `IRModified`. -/
def applyMutation (t : Block) : Mutation → Block
  | .zeroFold lid ty w => substB lid (freshId t) (replB lid (freshId t) ty w t)
  | .forward lid did => eraseB lid (substB lid did t)
  | .eraseStore i => eraseB i t
  | .eraseAtomic i => eraseB i t
  | .eraseAlloca i => eraseB i t

/-- Result of one driver pass over the tree (`node->accept(&find_and_optimizer)`
inside one iteration of the retry loop): the set of finished allocas grows as
clean runs complete; a thrown mutation carries the set as grown so far. -/
inductive FRes where
  | found (visited : List SId) (m : Mutation)
  | clean (visited : List SId)
deriving DecidableEq, Repr

mutual

/-- One driver traversal step (`AllocaFindAndOptimize` visiting one statement):
`after` is the suffix of `parent` following `x`. A not-yet-finished alloca gets
an `AllocaOptimize` run (`set_done` only on a clean run); container statements
are entered recursively. -/
def findStmt (parent : Block) (visited : List SId) (after : Block)
    (x : Stmt) : FRes :=
  match x with
  | .alloca i ty w =>
      if visited.contains i then .clean visited
      else
        match runAlloca ⟨i, ty, w⟩ parent after with
        | .modified m => .found visited m
        | .clean => .clean (i :: visited)
  | .ifStmt _ _ tb fb =>
      match findSuffix tb visited tb with
      | .found v m => .found v m
      | .clean v => findSuffix fb v fb
  | .whileStmt _ body => findSuffix body visited body
  | .rangeFor _ _ _ _ body => findSuffix body visited body
  | .structFor _ _ body => findSuffix body visited body
  | _ => .clean visited

/-- Driver traversal of the suffix `rest` of the block `parent`. -/
def findSuffix (parent : Block) (visited : List SId) (rest : Block) : FRes :=
  match rest with
  | [] => .clean visited
  | x :: xs =>
    match findStmt parent visited xs x with
    | .found v m => .found v m
    | .clean v => findSuffix parent v xs

end

/-- The driver retry loop (`AllocaFindAndOptimize::run`, lines 365-377), with
explicit fuel for the unbounded `while (true)`: a pass that throws applies its
mutation and restarts with the same finished set; a clean pass returns the
tree. `none` means the fuel was exhausted. -/
def runDriver : Nat → List SId → Block → Option Block
  | 0, _, _ => none
  | n + 1, v, t =>
    match findSuffix t v t with
    | .clean _ => some t
    | .found v' m => runDriver n v' (applyMutation t m)

/-- The whole pass `irpass::optimize_local_variable`. -/
def optimizeLocalVariable (fuel : Nat) (t : Block) : Option Block :=
  runDriver fuel [] t
/-- Soundness condition for a mutation against a tree: the statement it erases
or replaces actually occurs in the tree (with the right, counted kind). -/
def MutOk (t : Block) : Mutation → Prop
  | .zeroFold lid _ _ => ∃ ptr, occB (Stmt.localLoad lid ptr) t
  | .forward lid _ => ∃ ptr, occB (Stmt.localLoad lid ptr) t
  | .eraseStore i => ∃ p d, occB (Stmt.localStore i p d) t
  | .eraseAtomic i => ∃ d v, occB (Stmt.atomicOp i d v) t
  | .eraseAlloca i => ∃ ty w, occB (Stmt.alloca i ty w) t

/-- Back-references of an analyzer state point at store/atomic statements that
occur in the tree `t`. -/
def RefsOk (t : Block) (s : AState) : Prop :=
  (∀ r : StoreRef, s.last_store = some r →
     ∃ p d, occB (Stmt.localStore r.sid p d) t) ∧
  (∀ i : SId, s.last_atomic = some i → ∃ d v, occB (Stmt.atomicOp i d v) t)

/-- Invariant of C10: a valid last store reference is non-null. -/
def InvLS (s : AState) : Prop :=
  s.last_store_valid = true → s.last_store.isSome = true

/-- Example tree for C1: two distinct branch stores of the same value, then a regular load. -/
def exC1 : Block :=
  [.alloca 1 7 1, .constStmt 2 7 1,
   .ifStmt 3 2 [.localStore 4 1 2] [.localStore 5 1 2],
   .localLoad 6 [⟨1, 0⟩]]

/-- Branch state with a valid last store, used by the C1 witness. -/
def c1state : AState :=
  { initState with stored := true, last_store_valid := true,
                   last_store := some ⟨3, 2⟩ }

/-- Example tree for C2: both branches store the slot, nothing loads it afterwards. -/
def exC2 : Block :=
  [.alloca 1 7 1, .constStmt 2 7 1,
   .ifStmt 3 2 [.localStore 4 1 2] [.localStore 5 1 2]]

/-- True-branch result state with a fresh unloaded store, used by the C2 witness. -/
def c2t : AState :=
  { initState with stored := true, last_store_valid := true,
                   last_store := some ⟨4, 2⟩ }

/-- False-branch result state with a different fresh unloaded store, used by the C2 witness. -/
def c2f : AState :=
  { initState with stored := true, last_store_valid := true,
                   last_store := some ⟨5, 2⟩ }

/-- Example tree for C3: an atomic op on the slot whose result no remaining statement uses as an operand. -/
def exC3 : Block :=
  [.constStmt 9 7 1, .alloca 1 7 1, .atomicOp 2 1 9, .other 5 []]

/-- Analyzer state after walking the C3 example suffix. -/
def c3st : AState :=
  { stored := true, loaded := true, last_store := none,
    last_store_valid := false, last_store_loaded := false,
    last_atomic := some 2, last_atomic_eliminable := true,
    is_inside_loop := .outsideLoop }

/-- Example tree for C5: a store in only one branch, then a regular load. -/
def exC5 : Block :=
  [.alloca 1 7 1, .constStmt 2 7 1,
   .ifStmt 3 2 [.localStore 4 1 2] [],
   .localLoad 5 [⟨1, 0⟩]]

/-- Loop body walk result for the C6 witness. -/
def c6loop : AState :=
  { stored := true, loaded := false, last_store := some ⟨4, 2⟩,
    last_store_valid := true, last_store_loaded := false,
    last_atomic := none, last_atomic_eliminable := false,
    is_inside_loop := .insideMayHaveStores }

/-- Post-loop merged state for the C6 witness. -/
def c6res : AState :=
  { stored := true, loaded := false, last_store := some ⟨4, 2⟩,
    last_store_valid := false, last_store_loaded := false,
    last_atomic := none, last_atomic_eliminable := true,
    is_inside_loop := .outsideLoop }

/-- Example tree for C7: a store that is never loaded, so the first analyzer
run aborts with a dead-store erase mutation. -/
def exC7 : Block := [.alloca 1 7 1, .localStore 2 1 9]

/-- Analyzer state after walking a single store of the slot, used as the C10
witness instance. -/
def c10res : AState :=
  { stored := true, loaded := false, last_store := some ⟨4, 2⟩,
    last_store_valid := true, last_store_loaded := false,
    last_atomic := none, last_atomic_eliminable := false,
    is_inside_loop := .outsideLoop }

/-- Example tree for C8: slot B stores the value of an atomic op on slot A. -/
def exC8 : Block :=
  [.constStmt 9 7 1, .alloca 1 7 1, .alloca 2 7 1,
   .atomicOp 3 1 9, .localStore 4 2 3]

/-- The C8 example after one full pass: the dead store on B and B itself are gone, but the atomic op on A survives because A was marked finished before the store was erased. -/
def exC8once : Block := [.constStmt 9 7 1, .alloca 1 7 1, .atomicOp 3 1 9]

/-- The C8 example after a second full pass: the now-unreferenced atomic op and the declaration of A are erased too. -/
def exC8twice : Block := [.constStmt 9 7 1]

def exC9 : Block :=
  [.alloca 1 7 1, .localStore 2 1 9, .localLoad 3 [⟨1, 0⟩]]

mutual

theorem occS_count (y x : Stmt) (h : occS y x) : countS y ≤ countS x := by
  cases x <;> simp only [occS] at h
  case ifStmt i c tb fb =>
    rcases h with rfl | htb | hfb
    · exact Nat.le_refl _
    · calc countS y ≤ countB tb := occB_count y tb htb
        _ ≤ countS (Stmt.ifStmt i c tb fb) := by simp only [countS]; omega
    · calc countS y ≤ countB fb := occB_count y fb hfb
        _ ≤ countS (Stmt.ifStmt i c tb fb) := by simp only [countS]; omega
  case whileStmt i body =>
    rcases h with rfl | hb
    · exact Nat.le_refl _
    · exact le_trans (occB_count y body hb) (by simp [countS])
  case rangeFor i lv lo hi body =>
    rcases h with rfl | hb
    · exact Nat.le_refl _
    · exact le_trans (occB_count y body hb) (by simp [countS])
  case structFor i lvs body =>
    rcases h with rfl | hb
    · exact Nat.le_refl _
    · exact le_trans (occB_count y body hb) (by simp [countS])
  all_goals
    rcases h with rfl | h
    · exact Nat.le_refl _
    · exact absurd h not_false

theorem occB_count (y : Stmt) (b : Block) (h : occB y b) : countS y ≤ countB b := by
  cases b with
  | nil => exact absurd h not_false
  | cons x xs =>
    simp only [occB] at h
    rcases h with hx | hxs
    · exact le_trans (occS_count y x hx) (by simp only [countB]; omega)
    · exact le_trans (occB_count y xs hxs) (by simp only [countB]; omega)

end

mutual

theorem eraseS_le (i : SId) (x : Stmt) : countS (eraseS i x) ≤ countS x := by
  cases x <;> simp only [eraseS, countS] <;>
    first
      | exact Nat.le_refl _
      | exact Nat.add_le_add (eraseB_le i _) (eraseB_le i _)
      | exact eraseB_le i _

theorem eraseB_le (i : SId) (b : Block) : countB (eraseB i b) ≤ countB b := by
  cases b with
  | nil => exact Nat.le_refl _
  | cons x xs =>
    simp only [eraseB]
    split
    · calc countB (eraseB i xs) ≤ countB xs := eraseB_le i xs
        _ ≤ countB (x :: xs) := by simp only [countB]; omega
    · simp only [countB]
      exact Nat.add_le_add (eraseS_le i x) (eraseB_le i xs)

end

mutual

theorem eraseS_lt (i : SId) (y x : Stmt) (hocc : occS y x) (hsid : y.sid = i)
    (hcnt : 1 ≤ countS y) : y = x ∨ countS (eraseS i x) < countS x := by
  cases x <;> simp only [occS] at hocc
  case ifStmt j c tb fb =>
    rcases hocc with rfl | htb | hfb
    · exact Or.inl rfl
    · refine Or.inr ?_
      simp only [eraseS, countS]
      have := eraseB_lt i y tb htb hsid hcnt
      have := eraseB_le i fb
      omega
    · refine Or.inr ?_
      simp only [eraseS, countS]
      have := eraseB_lt i y fb hfb hsid hcnt
      have := eraseB_le i tb
      omega
  case whileStmt j body =>
    rcases hocc with rfl | hb
    · exact Or.inl rfl
    · exact Or.inr (by simp only [eraseS, countS]; exact eraseB_lt i y body hb hsid hcnt)
  case rangeFor j lv lo hi body =>
    rcases hocc with rfl | hb
    · exact Or.inl rfl
    · exact Or.inr (by simp only [eraseS, countS]; exact eraseB_lt i y body hb hsid hcnt)
  case structFor j lvs body =>
    rcases hocc with rfl | hb
    · exact Or.inl rfl
    · exact Or.inr (by simp only [eraseS, countS]; exact eraseB_lt i y body hb hsid hcnt)
  all_goals
    rcases hocc with rfl | hocc
    · exact Or.inl rfl
    · exact absurd hocc not_false

theorem eraseB_lt (i : SId) (y : Stmt) (b : Block) (hocc : occB y b)
    (hsid : y.sid = i) (hcnt : 1 ≤ countS y) :
    countB (eraseB i b) < countB b := by
  cases b with
  | nil => exact absurd hocc not_false
  | cons x xs =>
    simp only [occB] at hocc
    simp only [eraseB]
    split
    · rcases hocc with hx | hxs
      · have h1 : countS y ≤ countS x := occS_count y x hx
        have h2 : countB (eraseB i xs) ≤ countB xs := eraseB_le i xs
        simp only [countB]
        omega
      · have h1 : countB (eraseB i xs) < countB xs := eraseB_lt i y xs hxs hsid hcnt
        simp only [countB]
        omega
    · rcases hocc with hx | hxs
      · rcases eraseS_lt i y x hx hsid hcnt with rfl | hlt
        · next hne =>
            exact absurd (by simp [hsid]) hne
        · have h2 : countB (eraseB i xs) ≤ countB xs := eraseB_le i xs
          simp only [countB]
          omega
      · have h1 : countS (eraseS i x) ≤ countS x := eraseS_le i x
        have h2 : countB (eraseB i xs) < countB xs := eraseB_lt i y xs hxs hsid hcnt
        simp only [countB]
        omega

end

theorem substS_sid (o n : SId) (x : Stmt) : (substS o n x).sid = x.sid := by
  cases x <;> rfl

mutual

theorem substS_count (o n : SId) (x : Stmt) : countS (substS o n x) = countS x := by
  cases x <;> simp only [substS, countS]
  · exact congrArg₂ _ (substB_count o n _) (substB_count o n _)
  · exact substB_count o n _
  · exact substB_count o n _
  · exact substB_count o n _

theorem substB_count (o n : SId) (b : Block) : countB (substB o n b) = countB b := by
  cases b with
  | nil => rfl
  | cons x xs =>
    simp only [substB, countB]
    exact congrArg₂ _ (substS_count o n x) (substB_count o n xs)

end

mutual

theorem substS_occ (o n : SId) (y x : Stmt) (h : occS y x) :
    occS (substS o n y) (substS o n x) := by
  cases x <;> simp only [occS] at h ⊢
  case ifStmt j c tb fb =>
    rcases h with rfl | htb | hfb
    · exact Or.inl rfl
    · exact Or.inr (Or.inl (substB_occ o n y tb htb))
    · exact Or.inr (Or.inr (substB_occ o n y fb hfb))
  case whileStmt j body =>
    rcases h with rfl | hb
    · exact Or.inl rfl
    · exact Or.inr (substB_occ o n y body hb)
  case rangeFor j lv lo hi body =>
    rcases h with rfl | hb
    · exact Or.inl rfl
    · exact Or.inr (substB_occ o n y body hb)
  case structFor j lvs body =>
    rcases h with rfl | hb
    · exact Or.inl rfl
    · exact Or.inr (substB_occ o n y body hb)
  all_goals
    rcases h with rfl | h
    · exact Or.inl rfl
    · exact absurd h not_false

theorem substB_occ (o n : SId) (y : Stmt) (b : Block) (h : occB y b) :
    occB (substS o n y) (substB o n b) := by
  cases b with
  | nil => exact absurd h not_false
  | cons x xs =>
    simp only [occB] at h ⊢
    rcases h with hx | hxs
    · exact Or.inl (substS_occ o n y x hx)
    · exact Or.inr (substB_occ o n y xs hxs)

end

mutual

theorem replS_le (lid : SId) (z ty w : Nat) (x : Stmt) :
    countS (replS lid z ty w x) ≤ countS x := by
  cases x <;> simp only [replS, countS] <;>
    first
      | exact Nat.le_refl _
      | exact Nat.add_le_add (replB_le lid z ty w _) (replB_le lid z ty w _)
      | exact replB_le lid z ty w _

theorem replB_le (lid : SId) (z ty w : Nat) (b : Block) :
    countB (replB lid z ty w b) ≤ countB b := by
  cases b with
  | nil => exact Nat.le_refl _
  | cons x xs =>
    simp only [replB]
    split
    · simp only [countB, countS]
      have := replB_le lid z ty w xs
      omega
    · simp only [countB]
      exact Nat.add_le_add (replS_le lid z ty w x) (replB_le lid z ty w xs)

end

mutual

theorem replS_lt (lid : SId) (z ty w : Nat) (y x : Stmt) (hocc : occS y x)
    (hsid : y.sid = lid) (hcnt : 1 ≤ countS y) :
    y = x ∨ countS (replS lid z ty w x) < countS x := by
  cases x <;> simp only [occS] at hocc
  case ifStmt j c tb fb =>
    rcases hocc with rfl | htb | hfb
    · exact Or.inl rfl
    · refine Or.inr ?_
      simp only [replS, countS]
      have := replB_lt lid z ty w y tb htb hsid hcnt
      have := replB_le lid z ty w fb
      omega
    · refine Or.inr ?_
      simp only [replS, countS]
      have := replB_lt lid z ty w y fb hfb hsid hcnt
      have := replB_le lid z ty w tb
      omega
  case whileStmt j body =>
    rcases hocc with rfl | hb
    · exact Or.inl rfl
    · refine Or.inr ?_
      simp only [replS, countS]
      exact replB_lt lid z ty w y body hb hsid hcnt
  case rangeFor j lv lo hi body =>
    rcases hocc with rfl | hb
    · exact Or.inl rfl
    · refine Or.inr ?_
      simp only [replS, countS]
      exact replB_lt lid z ty w y body hb hsid hcnt
  case structFor j lvs body =>
    rcases hocc with rfl | hb
    · exact Or.inl rfl
    · refine Or.inr ?_
      simp only [replS, countS]
      exact replB_lt lid z ty w y body hb hsid hcnt
  all_goals
    rcases hocc with rfl | hocc
    · exact Or.inl rfl
    · exact absurd hocc not_false

theorem replB_lt (lid : SId) (z ty w : Nat) (y : Stmt) (b : Block)
    (hocc : occB y b) (hsid : y.sid = lid) (hcnt : 1 ≤ countS y) :
    countB (replB lid z ty w b) < countB b := by
  cases b with
  | nil => exact absurd hocc not_false
  | cons x xs =>
    simp only [occB] at hocc
    simp only [replB]
    split
    · rcases hocc with hx | hxs
      · have h1 : countS y ≤ countS x := occS_count y x hx
        have h2 : countB (replB lid z ty w xs) ≤ countB xs := replB_le lid z ty w xs
        simp only [countB, countS]
        omega
      · have h1 : countB (replB lid z ty w xs) < countB xs :=
          replB_lt lid z ty w y xs hxs hsid hcnt
        simp only [countB, countS]
        omega
    · rcases hocc with hx | hxs
      · rcases replS_lt lid z ty w y x hx hsid hcnt with rfl | hlt
        · next hne =>
            exact absurd (by simp [hsid]) hne
        · have h2 : countB (replB lid z ty w xs) ≤ countB xs := replB_le lid z ty w xs
          simp only [countB]
          omega
      · have h1 : countS (replS lid z ty w x) ≤ countS x := replS_le lid z ty w x
        have h2 : countB (replB lid z ty w xs) < countB xs :=
          replB_lt lid z ty w y xs hxs hsid hcnt
        simp only [countB]
        omega

end

theorem applyMutation_lt (t : Block) (m : Mutation) (h : MutOk t m) :
    countB (applyMutation t m) < countB t := by
  cases m with
  | zeroFold lid ty w =>
      obtain ⟨ptr, hocc⟩ := h
      simp only [applyMutation]
      rw [substB_count]
      exact replB_lt lid (freshId t) ty w (Stmt.localLoad lid ptr) t hocc rfl
        (Nat.le_refl 1)
  | forward lid did =>
      obtain ⟨ptr, hocc⟩ := h
      simp only [applyMutation]
      have hocc2 := substB_occ lid did (Stmt.localLoad lid ptr) t hocc
      calc countB (eraseB lid (substB lid did t))
          < countB (substB lid did t) :=
            eraseB_lt lid (substS lid did (Stmt.localLoad lid ptr)) _ hocc2
              (substS_sid lid did _) (by rw [substS_count]; exact Nat.le_refl 1)
        _ = countB t := substB_count lid did t
  | eraseStore i =>
      obtain ⟨p, d, hocc⟩ := h
      simp only [applyMutation]
      exact eraseB_lt i (Stmt.localStore i p d) t hocc rfl (Nat.le_refl 1)
  | eraseAtomic i =>
      obtain ⟨d, v, hocc⟩ := h
      simp only [applyMutation]
      exact eraseB_lt i (Stmt.atomicOp i d v) t hocc rfl (Nat.le_refl 1)
  | eraseAlloca i =>
      obtain ⟨ty, w, hocc⟩ := h
      simp only [applyMutation]
      exact eraseB_lt i (Stmt.alloca i ty w) t hocc rfl (Nat.le_refl 1)

theorem mergeIf_ls_cases (pre t f : AState) :
    (mergeIf pre t f).last_store = pre.last_store ∨
    (mergeIf pre t f).last_store = t.last_store ∨
    (mergeIf pre t f).last_store = f.last_store ∨
    (mergeIf pre t f).last_store = none := by
  unfold mergeIf
  repeat' split
  all_goals try simp
  all_goals split <;> simp

theorem mergeIf_la_cases (pre t f : AState) :
    (mergeIf pre t f).last_atomic = pre.last_atomic ∨
    (mergeIf pre t f).last_atomic = t.last_atomic ∨
    (mergeIf pre t f).last_atomic = f.last_atomic ∨
    (mergeIf pre t f).last_atomic = none := by
  unfold mergeIf
  repeat' split
  all_goals try simp
  all_goals split <;> simp

theorem loopMerge_ls_cases (s1 loop : AState) (b : Bool) :
    (loopMerge s1 loop b).last_store = s1.last_store ∨
    (loopMerge s1 loop b).last_store = loop.last_store ∨
    (loopMerge s1 loop b).last_store = none := by
  unfold loopMerge
  repeat' split
  all_goals simp

theorem loopMerge_la_cases (s1 loop : AState) (b : Bool) :
    (loopMerge s1 loop b).last_atomic = s1.last_atomic ∨
    (loopMerge s1 loop b).last_atomic = loop.last_atomic ∨
    (loopMerge s1 loop b).last_atomic = none := by
  unfold loopMerge
  repeat' split
  all_goals simp

theorem refsOk_of_fields (t : Block) (s s' : AState)
    (hls : s'.last_store = s.last_store) (hla : s'.last_atomic = s.last_atomic)
    (h : RefsOk t s) : RefsOk t s' := by
  refine ⟨fun r hr => h.1 r ?_, fun i hi => h.2 i ?_⟩
  · rw [← hls]; exact hr
  · rw [← hla]; exact hi

theorem refsOk_mergeIf (t : Block) (pre tb fb : AState)
    (hp : RefsOk t pre) (ht : RefsOk t tb) (hf : RefsOk t fb) :
    RefsOk t (mergeIf pre tb fb) := by
  constructor
  · intro r hr
    rcases mergeIf_ls_cases pre tb fb with h | h | h | h
    · exact hp.1 r (h ▸ hr)
    · exact ht.1 r (h ▸ hr)
    · exact hf.1 r (h ▸ hr)
    · rw [h] at hr; cases hr
  · intro i hi
    rcases mergeIf_la_cases pre tb fb with h | h | h | h
    · exact hp.2 i (h ▸ hi)
    · exact ht.2 i (h ▸ hi)
    · exact hf.2 i (h ▸ hi)
    · rw [h] at hi; cases hi

theorem refsOk_loopMerge (t : Block) (s1 loop : AState) (b : Bool)
    (h1 : RefsOk t s1) (h2 : RefsOk t loop) :
    RefsOk t (loopMerge s1 loop b) := by
  constructor
  · intro r hr
    rcases loopMerge_ls_cases s1 loop b with h | h | h
    · exact h1.1 r (h ▸ hr)
    · exact h2.1 r (h ▸ hr)
    · rw [h] at hr; cases hr
  · intro i hi
    rcases loopMerge_la_cases s1 loop b with h | h | h
    · exact h1.2 i (h ▸ hi)
    · exact h2.2 i (h ▸ hi)
    · rw [h] at hi; cases hi

theorem loadFlagUpdate_ls (a : SId) (s : AState) (ptr : List LaneRef) :
    (loadFlagUpdate a s ptr).last_store = s.last_store := by
  unfold loadFlagUpdate
  split <;> rfl

theorem loadFlagUpdate_la (a : SId) (s : AState) (ptr : List LaneRef) :
    (loadFlagUpdate a s ptr).last_atomic = s.last_atomic := by
  unfold loadFlagUpdate
  split <;> rfl

theorem visitLocalLoad_cases (a : SId) (ty : Nat) (s : AState) (i : SId)
    (ptr : List LaneRef) :
    (∃ s', visitLocalLoad a ty s i ptr = .done s' ∧
       s'.last_store = s.last_store ∧ s'.last_atomic = s.last_atomic) ∨
    visitLocalLoad a ty s i ptr = .modified (.zeroFold i ty ptr.length) ∨
    (∃ d, visitLocalLoad a ty s i ptr = .modified (.forward i d)) := by
  simp only [visitLocalLoad]
  repeat' split
  all_goals
    first
      | exact Or.inr (Or.inl rfl)
      | exact Or.inr (Or.inr ⟨_, rfl⟩)
      | exact Or.inl ⟨_, rfl, loadFlagUpdate_ls a s ptr, loadFlagUpdate_la a s ptr⟩

theorem loopExpr_refs (t : Block) (a : SId) (ty : Nat) (s : AState)
    (body : Block) (ilv : Bool) (hrefs : RefsOk t s)
    (hsubB : ∀ y, occB y body → occB y t)
    (ih : ∀ s0 : AState, RefsOk t s0 →
      (∀ s', walkBlock a ty s0 body = .done s' → RefsOk t s') ∧
      (∀ m, walkBlock a ty s0 body = .modified m → MutOk t m)) :
    (∀ s', ((walkBlock a ty (loopInitState s) body).bind fun loop =>
        let s1 := { s with stored := s.stored || loop.stored,
                           loaded := s.loaded || loop.loaded }
        if needSecondWalk s1 loop ilv then
          (walkBlock a ty { s1 with is_inside_loop := .insideNoStores }
              body).bind fun _ => .done (loopMerge s1 loop ilv)
        else .done (loopMerge s1 loop ilv)) = .done s' → RefsOk t s') ∧
    (∀ m, ((walkBlock a ty (loopInitState s) body).bind fun loop =>
        let s1 := { s with stored := s.stored || loop.stored,
                           loaded := s.loaded || loop.loaded }
        if needSecondWalk s1 loop ilv then
          (walkBlock a ty { s1 with is_inside_loop := .insideNoStores }
              body).bind fun _ => .done (loopMerge s1 loop ilv)
        else .done (loopMerge s1 loop ilv)) = .modified m → MutOk t m) := by
  have hrefs0 : RefsOk t (loopInitState s) :=
    ⟨fun r hr => by simp [loopInitState, initState] at hr,
     fun j hj => by simp [loopInitState, initState] at hj⟩
  constructor
  · intro s' h
    cases hb : walkBlock a ty (loopInitState s) body with
    | modified m2 => rw [hb] at h; simp [WRes.bind] at h
    | done loop =>
      rw [hb] at h
      simp only [WRes.bind] at h
      have hloop : RefsOk t loop := (ih (loopInitState s) hrefs0).1 loop hb
      have hs1 : RefsOk t { s with stored := s.stored || loop.stored,
                                   loaded := s.loaded || loop.loaded } :=
        refsOk_of_fields t s _ rfl rfl hrefs
      split at h
      · cases hb2 : walkBlock a ty
            { s with stored := s.stored || loop.stored,
                     loaded := s.loaded || loop.loaded,
                     is_inside_loop := .insideNoStores } body with
        | modified m2 => rw [hb2] at h; simp [WRes.bind] at h
        | done s2 =>
          rw [hb2] at h
          simp only [WRes.bind] at h
          cases h
          exact refsOk_loopMerge t _ loop ilv hs1 hloop
      · cases h
        exact refsOk_loopMerge t _ loop ilv hs1 hloop
  · intro m h
    cases hb : walkBlock a ty (loopInitState s) body with
    | modified m2 =>
      rw [hb] at h
      simp only [WRes.bind] at h
      cases h
      exact (ih (loopInitState s) hrefs0).2 _ hb
    | done loop =>
      rw [hb] at h
      simp only [WRes.bind] at h
      have hs1 : RefsOk t { s with stored := s.stored || loop.stored,
                                   loaded := s.loaded || loop.loaded,
                                   is_inside_loop := .insideNoStores } :=
        refsOk_of_fields t s _ rfl rfl hrefs
      split at h
      · cases hb2 : walkBlock a ty
            { s with stored := s.stored || loop.stored,
                     loaded := s.loaded || loop.loaded,
                     is_inside_loop := .insideNoStores } body with
        | modified m2 =>
          rw [hb2] at h
          simp only [WRes.bind] at h
          cases h
          exact (ih _ hs1).2 _ hb2
        | done s2 => rw [hb2] at h; simp [WRes.bind] at h
      · simp [WRes.bind] at h

mutual

theorem walkStmt_refs (t : Block) (a : SId) (ty : Nat) (s : AState) (st : Stmt)
    (hsub : ∀ y, occS y st → occB y t) (hrefs : RefsOk t s) :
    (∀ s', walkStmt a ty s st = .done s' → RefsOk t s') ∧
    (∀ m, walkStmt a ty s st = .modified m → MutOk t m) := by
  cases st with
  | alloca i ty2 w =>
      exact ⟨fun s' h => by cases h; exact hrefs, fun m h => by cases h⟩
  | constStmt i ty2 w =>
      exact ⟨fun s' h => by cases h; exact hrefs, fun m h => by cases h⟩
  | other i ops =>
      exact ⟨fun s' h => by cases h; exact hrefs, fun m h => by cases h⟩
  | localStore i p d =>
      constructor
      · intro s' h
        cases h
        unfold visitLocalStore
        split
        · constructor
          · intro r hr
            simp only [AState.last_store] at hr
            cases hr
            exact ⟨p, d, hsub _ (Or.inl rfl)⟩
          · intro j hj
            simp only [AState.last_atomic] at hj
            cases hj
        · exact hrefs
      · intro m h
        cases h
  | atomicOp i dst v =>
      constructor
      · intro s' h
        cases h
        unfold visitAtomicOp
        split
        · constructor
          · intro r hr
            simp only [AState.last_store] at hr
            cases hr
          · intro j hj
            simp only [AState.last_atomic] at hj
            cases hj
            exact ⟨dst, v, hsub _ (Or.inl rfl)⟩
        · exact hrefs
      · intro m h
        cases h
  | localLoad i ptr =>
      constructor
      · intro s' h
        rcases visitLocalLoad_cases a ty s i ptr with ⟨s2, he, hls, hla⟩ | he | ⟨d, he⟩
        · have h2 : walkStmt a ty s (.localLoad i ptr) = .done s2 := he
          rw [h2] at h
          cases h
          exact refsOk_of_fields t s _ hls hla hrefs
        · have h2 : walkStmt a ty s (.localLoad i ptr) = .modified _ := he
          rw [h2] at h
          cases h
        · have h2 : walkStmt a ty s (.localLoad i ptr) = .modified _ := he
          rw [h2] at h
          cases h
      · intro m h
        rcases visitLocalLoad_cases a ty s i ptr with ⟨s2, he, hls, hla⟩ | he | ⟨d, he⟩
        · have h2 : walkStmt a ty s (.localLoad i ptr) = .done s2 := he
          rw [h2] at h
          cases h
        · have h2 : walkStmt a ty s (.localLoad i ptr) = .modified _ := he
          rw [h2] at h
          cases h
          exact ⟨ptr, hsub _ (Or.inl rfl)⟩
        · have h2 : walkStmt a ty s (.localLoad i ptr) = .modified _ := he
          rw [h2] at h
          cases h
          exact ⟨ptr, hsub _ (Or.inl rfl)⟩
  | ifStmt j c tb fb =>
      have hsubT : ∀ y, occB y tb → occB y t :=
        fun y hy => hsub y (Or.inr (Or.inl hy))
      have hsubF : ∀ y, occB y fb → occB y t :=
        fun y hy => hsub y (Or.inr (Or.inr hy))
      constructor
      · intro s' h
        simp only [walkStmt] at h
        cases htb : walkBlock a ty s tb with
        | modified m2 => rw [htb] at h; simp [WRes.bind] at h
        | done tRes =>
          rw [htb] at h
          simp only [WRes.bind] at h
          cases hfb : walkBlock a ty s fb with
          | modified m2 => rw [hfb] at h; simp [WRes.bind] at h
          | done fRes =>
            rw [hfb] at h
            simp only [WRes.bind] at h
            cases h
            exact refsOk_mergeIf t s tRes fRes hrefs
              ((walkBlock_refs t a ty s tb hsubT hrefs).1 tRes htb)
              ((walkBlock_refs t a ty s fb hsubF hrefs).1 fRes hfb)
      · intro m h
        simp only [walkStmt] at h
        cases htb : walkBlock a ty s tb with
        | modified m2 =>
          rw [htb] at h
          simp only [WRes.bind] at h
          cases h
          exact (walkBlock_refs t a ty s tb hsubT hrefs).2 _ htb
        | done tRes =>
          rw [htb] at h
          simp only [WRes.bind] at h
          cases hfb : walkBlock a ty s fb with
          | modified m2 =>
            rw [hfb] at h
            simp only [WRes.bind] at h
            cases h
            exact (walkBlock_refs t a ty s fb hsubF hrefs).2 _ hfb
          | done fRes => rw [hfb] at h; simp [WRes.bind] at h
  | whileStmt j body =>
      have hsubB : ∀ y, occB y body → occB y t := fun y hy => hsub y (Or.inr hy)
      have hl := loopExpr_refs t a ty s body false hrefs hsubB
        (fun s0 h0 => walkBlock_refs t a ty s0 body hsubB h0)
      exact ⟨fun s' h => hl.1 s' h, fun m h => hl.2 m h⟩
  | rangeFor j lv lo hi body =>
      have hsubB : ∀ y, occB y body → occB y t := fun y hy => hsub y (Or.inr hy)
      have hl := loopExpr_refs t a ty s body (lv == a) hrefs hsubB
        (fun s0 h0 => walkBlock_refs t a ty s0 body hsubB h0)
      exact ⟨fun s' h => hl.1 s' h, fun m h => hl.2 m h⟩
  | structFor j lvs body =>
      have hsubB : ∀ y, occB y body → occB y t := fun y hy => hsub y (Or.inr hy)
      have hl := loopExpr_refs t a ty s body (lvs.contains a) hrefs hsubB
        (fun s0 h0 => walkBlock_refs t a ty s0 body hsubB h0)
      exact ⟨fun s' h => hl.1 s' h, fun m h => hl.2 m h⟩

theorem walkBlock_refs (t : Block) (a : SId) (ty : Nat) (s : AState) (b : Block)
    (hsub : ∀ y, occB y b → occB y t) (hrefs : RefsOk t s) :
    (∀ s', walkBlock a ty s b = .done s' → RefsOk t s') ∧
    (∀ m, walkBlock a ty s b = .modified m → MutOk t m) := by
  cases b with
  | nil =>
      exact ⟨fun s' h => by cases h; exact hrefs, fun m h => by cases h⟩
  | cons x xs =>
      have hsubX : ∀ y, occS y x → occB y t := fun y hy => hsub y (Or.inl hy)
      have hsubXS : ∀ y, occB y xs → occB y t := fun y hy => hsub y (Or.inr hy)
      constructor
      · intro s' h
        simp only [walkBlock] at h
        cases hx : walkStmt a ty s x with
        | modified m2 => rw [hx] at h; simp [WRes.bind] at h
        | done s2 =>
          rw [hx] at h
          simp only [WRes.bind] at h
          exact (walkBlock_refs t a ty s2 xs hsubXS
            ((walkStmt_refs t a ty s x hsubX hrefs).1 s2 hx)).1 s' h
      · intro m h
        simp only [walkBlock] at h
        cases hx : walkStmt a ty s x with
        | modified m2 =>
          rw [hx] at h
          simp only [WRes.bind] at h
          cases h
          exact (walkStmt_refs t a ty s x hsubX hrefs).2 _ hx
        | done s2 =>
          rw [hx] at h
          simp only [WRes.bind] at h
          exact (walkBlock_refs t a ty s2 xs hsubXS
            ((walkStmt_refs t a ty s x hsubX hrefs).1 s2 hx)).2 m h

end

theorem runTailAlloca_ok (t : Block) (a : AllocaInfo) (st : AState)
    (hal : ∃ ty w, occB (Stmt.alloca a.sid ty w) t) :
    ∀ m, runTailAlloca a st = .modified m → MutOk t m := by
  intro m h
  unfold runTailAlloca at h
  split at h
  · cases h
    exact hal
  · cases h

theorem runTailAtomic_ok (t : Block) (a : AllocaInfo) (parent : Block)
    (st : AState) (hrefs : RefsOk t st)
    (hal : ∃ ty w, occB (Stmt.alloca a.sid ty w) t) :
    ∀ m, runTailAtomic a parent st = .modified m → MutOk t m := by
  intro m h
  unfold runTailAtomic at h
  split at h
  · next aid heq =>
      split at h
      · split at h
        · cases h
          exact hrefs.2 aid heq
        · exact runTailAlloca_ok t a st hal m h
      · exact runTailAlloca_ok t a st hal m h
  · exact runTailAlloca_ok t a st hal m h

theorem runTailStore_ok (t : Block) (a : AllocaInfo) (parent : Block)
    (st : AState) (hrefs : RefsOk t st)
    (hal : ∃ ty w, occB (Stmt.alloca a.sid ty w) t) :
    ∀ m, runTailStore a parent st = .modified m → MutOk t m := by
  intro m h
  unfold runTailStore at h
  split at h
  · next r heq =>
      split at h
      · cases h
        exact hrefs.1 r heq
      · exact runTailAtomic_ok t a parent st hrefs hal m h
  · exact runTailAtomic_ok t a parent st hrefs hal m h

theorem runAlloca_ok (t : Block) (a : AllocaInfo) (parent after : Block)
    (hsubA : ∀ y, occB y after → occB y t)
    (hal : ∃ ty w, occB (Stmt.alloca a.sid ty w) t) :
    ∀ m, runAlloca a parent after = .modified m → MutOk t m := by
  intro m h
  have hrefs0 : RefsOk t initState :=
    ⟨fun r hr => (by cases hr), fun i hi => (by cases hi)⟩
  unfold runAlloca at h
  cases hw : walkBlock a.sid a.ty initState after with
  | modified m2 =>
      rw [hw] at h
      cases h
      exact (walkBlock_refs t a.sid a.ty initState after hsubA hrefs0).2 _ hw
  | done st =>
      rw [hw] at h
      exact runTailStore_ok t a parent st
        ((walkBlock_refs t a.sid a.ty initState after hsubA hrefs0).1 st hw)
        hal m h

mutual

theorem findStmt_ok (t parent : Block) (v : List SId) (after : Block) (x : Stmt)
    (hsubA : ∀ y, occB y after → occB y t)
    (hsubX : ∀ y, occS y x → occB y t) :
    ∀ v' m, findStmt parent v after x = .found v' m → MutOk t m := by
  intro v' m h
  cases x with
  | alloca i ty w =>
      simp only [findStmt] at h
      split at h
      · cases h
      · cases hr : runAlloca ⟨i, ty, w⟩ parent after with
        | modified m2 =>
            rw [hr] at h
            cases h
            exact runAlloca_ok t ⟨i, ty, w⟩ parent after hsubA
              ⟨ty, w, hsubX _ (Or.inl rfl)⟩ _ hr
        | clean => rw [hr] at h; cases h
  | ifStmt j c tb fb =>
      simp only [findStmt] at h
      cases hf : findSuffix tb v tb with
      | found v2 m2 =>
          rw [hf] at h
          cases h
          exact findSuffix_ok t tb v tb
            (fun y hy => hsubX y (Or.inr (Or.inl hy))) _ _ hf
      | clean v2 =>
          rw [hf] at h
          exact findSuffix_ok t fb v2 fb
            (fun y hy => hsubX y (Or.inr (Or.inr hy))) _ _ h
  | whileStmt j body =>
      simp only [findStmt] at h
      exact findSuffix_ok t body v body
        (fun y hy => hsubX y (Or.inr hy)) _ _ h
  | rangeFor j lv lo hi body =>
      simp only [findStmt] at h
      exact findSuffix_ok t body v body
        (fun y hy => hsubX y (Or.inr hy)) _ _ h
  | structFor j lvs body =>
      simp only [findStmt] at h
      exact findSuffix_ok t body v body
        (fun y hy => hsubX y (Or.inr hy)) _ _ h
  | localStore i p d => simp [findStmt] at h
  | localLoad i ptr => simp [findStmt] at h
  | atomicOp i d2 v2 => simp [findStmt] at h
  | constStmt i ty w => simp [findStmt] at h
  | other i ops => simp [findStmt] at h

theorem findSuffix_ok (t parent : Block) (v : List SId) (rest : Block)
    (hsubR : ∀ y, occB y rest → occB y t) :
    ∀ v' m, findSuffix parent v rest = .found v' m → MutOk t m := by
  intro v' m h
  cases rest with
  | nil => cases h
  | cons x xs =>
      simp only [findSuffix] at h
      cases hx : findStmt parent v xs x with
      | found v2 m2 =>
          rw [hx] at h
          cases h
          exact findStmt_ok t parent v xs x
            (fun y hy => hsubR y (Or.inr hy))
            (fun y hy => hsubR y (Or.inl hy)) _ _ hx
      | clean v2 =>
          rw [hx] at h
          exact findSuffix_ok t parent v2 xs
            (fun y hy => hsubR y (Or.inr hy)) _ _ h

end

theorem runDriver_succeeds (n : Nat) :
    ∀ (v : List SId) (t : Block), countB t < n → runDriver n v t ≠ none := by
  induction n with
  | zero => intro v t h; exact absurd h (Nat.not_lt_zero _)
  | succ k ih =>
      intro v t h
      cases hf : findSuffix t v t with
      | clean v2 => simp [runDriver, hf]
      | found v2 m =>
          have hok : MutOk t m := findSuffix_ok t t v t (fun y hy => hy) v2 m hf
          have hlt : countB (applyMutation t m) < countB t := applyMutation_lt t m hok
          have := ih v2 (applyMutation t m) (by omega)
          simp only [runDriver, hf]
          exact this

set_option maxHeartbeats 1000000 in
theorem invLS_mergeIf (pre t f : AState) (hp : InvLS pre) (ht : InvLS t)
    (hf : InvLS f) : InvLS (mergeIf pre t f) := by
  unfold mergeIf InvLS at *
  intro hv
  repeat' split at hv
  all_goals try simp_all
  all_goals (split <;> simp_all)

theorem loadFlagUpdate_valid (a : SId) (s : AState) (ptr : List LaneRef) :
    (loadFlagUpdate a s ptr).last_store_valid = s.last_store_valid := by
  unfold loadFlagUpdate
  split <;> rfl

theorem visitLocalLoad_done (a : SId) (ty : Nat) (s : AState) (i : SId)
    (ptr : List LaneRef) (s' : AState)
    (h : visitLocalLoad a ty s i ptr = .done s') :
    s'.last_store = s.last_store ∧ s'.last_store_valid = s.last_store_valid := by
  simp only [visitLocalLoad] at h
  repeat' split at h
  all_goals cases h
  all_goals exact ⟨loadFlagUpdate_ls a s ptr, loadFlagUpdate_valid a s ptr⟩

theorem invLS_visitLocalStore (a : SId) (s : AState) (i p d : SId)
    (hs : InvLS s) : InvLS (visitLocalStore a s i p d) := by
  unfold visitLocalStore InvLS at *
  split
  · intro hv
    rfl
  · exact hs

theorem invLS_visitAtomicOp (a : SId) (s : AState) (i dst : SId)
    (hs : InvLS s) : InvLS (visitAtomicOp a s i dst) := by
  unfold visitAtomicOp InvLS at *
  split
  · intro hv
    cases hv
  · exact hs

theorem invLS_loopMerge (s1 loop : AState) (b : Bool) (hs1 : InvLS s1) :
    InvLS (loopMerge s1 loop b) := by
  unfold loopMerge InvLS at *
  repeat' split
  all_goals intro hv
  · cases hv
  · exact hs1 hv
  · cases hv

theorem loopExpr_inv (a : SId) (ty : Nat) (s : AState) (body : Block)
    (ilv : Bool) (s' : AState)
    (h : ((walkBlock a ty (loopInitState s) body).bind fun loop =>
        let s1 := { s with stored := s.stored || loop.stored,
                           loaded := s.loaded || loop.loaded }
        if needSecondWalk s1 loop ilv then
          (walkBlock a ty { s1 with is_inside_loop := .insideNoStores }
              body).bind fun _ => .done (loopMerge s1 loop ilv)
        else .done (loopMerge s1 loop ilv)) = .done s')
    (hs : InvLS s) : InvLS s' := by
  cases hb : walkBlock a ty (loopInitState s) body with
  | modified m2 => rw [hb] at h; simp [WRes.bind] at h
  | done loop =>
      rw [hb] at h
      simp only [WRes.bind] at h
      split at h
      · cases hb2 : walkBlock a ty
            { s with stored := s.stored || loop.stored,
                     loaded := s.loaded || loop.loaded,
                     is_inside_loop := .insideNoStores } body with
        | modified m2 => rw [hb2] at h; simp [WRes.bind] at h
        | done s2 =>
            rw [hb2] at h
            simp only [WRes.bind] at h
            cases h
            exact invLS_loopMerge _ loop ilv hs
      · cases h
        exact invLS_loopMerge _ loop ilv hs

mutual

theorem walkStmt_inv (a : SId) (ty : Nat) (s : AState) (st : Stmt) (s' : AState)
    (h : walkStmt a ty s st = .done s') (hs : InvLS s) : InvLS s' := by
  cases st with
  | alloca i ty2 w => cases h; exact hs
  | constStmt i ty2 w => cases h; exact hs
  | other i ops => cases h; exact hs
  | localStore i p d => cases h; exact invLS_visitLocalStore a s i p d hs
  | atomicOp i dst v => cases h; exact invLS_visitAtomicOp a s i dst hs
  | localLoad i ptr =>
      have hd := visitLocalLoad_done a ty s i ptr s' h
      intro hv
      rw [hd.1]
      exact hs (hd.2 ▸ hv)
  | ifStmt j c tb fb =>
      simp only [walkStmt] at h
      cases htb : walkBlock a ty s tb with
      | modified m2 => rw [htb] at h; simp [WRes.bind] at h
      | done tRes =>
          rw [htb] at h
          simp only [WRes.bind] at h
          cases hfb : walkBlock a ty s fb with
          | modified m2 => rw [hfb] at h; simp [WRes.bind] at h
          | done fRes =>
              rw [hfb] at h
              simp only [WRes.bind] at h
              cases h
              exact invLS_mergeIf s tRes fRes hs
                (walkBlock_inv a ty s tb tRes htb hs)
                (walkBlock_inv a ty s fb fRes hfb hs)
  | whileStmt j body => exact loopExpr_inv a ty s body false s' h hs
  | rangeFor j lv lo hi body => exact loopExpr_inv a ty s body (lv == a) s' h hs
  | structFor j lvs body =>
      exact loopExpr_inv a ty s body (lvs.contains a) s' h hs

theorem walkBlock_inv (a : SId) (ty : Nat) (s : AState) (b : Block) (s' : AState)
    (h : walkBlock a ty s b = .done s') (hs : InvLS s) : InvLS s' := by
  cases b with
  | nil => cases h; exact hs
  | cons x xs =>
      simp only [walkBlock] at h
      cases hx : walkStmt a ty s x with
      | modified m2 => rw [hx] at h; simp [WRes.bind] at h
      | done s2 =>
          rw [hx] at h
          simp only [WRes.bind] at h
          exact walkBlock_inv a ty s2 xs s' h (walkStmt_inv a ty s x s2 hx hs)

end

theorem loopMerge_invalid (s1 loop : AState) (b : Bool)
    (hst : loop.stored = true) :
    (loopMerge s1 loop b).last_store_valid = false := by
  unfold loopMerge
  split
  · rfl
  · split <;> simp_all

/-- Counterexample to C1: on `if c {store slot=V} else {store slot=V}; load slot` with two distinct store statements of the same value V, the pass performs no mutation at all — the if/else merge compares store statement identity, not the stored value, so the load is never forwarded. -/
theorem c1_counterexample : optimizeLocalVariable 10 exC1 = some exC1 := rfl

/-- C1 (amended): after an if/else in which the slot is stored, the merged last store is valid — enabling store-forwarding of a following regular load — if and only if both branch walks end with the identical last store statement (same statement, not merely the same stored value). -/
theorem c1_amended (pre t f : AState) (hst : (t.stored || f.stored) = true) :
    (mergeIf pre t f).last_store_valid = true ↔
      (t.last_store_valid = true ∧ f.last_store_valid = true ∧
       t.last_store = f.last_store) := by
  unfold mergeIf
  constructor
  · intro h
    simp only [hst] at h
    repeat' split at h
    all_goals simp_all
  · rintro ⟨h1, h2, h3⟩
    simp only [hst, h1, h2, h3]
    repeat' split
    all_goals simp_all

/-- Witness for the amended C1 at a concrete merge: identical branch last stores keep validity. -/
theorem c1_amended_witness :
    (mergeIf initState c1state c1state).last_store_valid = true :=
  (c1_amended initState c1state c1state rfl).mpr ⟨rfl, rfl, rfl⟩

/-- Counterexample to C2: when both branches replace the pre-conditional last store with their own new, not-yet-loaded stores, the true branch store becomes the dead-store candidate and the walk ends by erasing it — the candidate is not discarded as the claim states. -/
theorem c2_counterexample :
    runAlloca ⟨1, 7, 1⟩ exC2 (exC2.drop 1) = .modified (.eraseStore 4) := rfl

/-- C2 (amended): in the invalid merge with a changed last store, the true branch store becomes the candidate whenever it is a strictly later, non-null, not-yet-loaded store — regardless of the false branch; otherwise the false branch store if it qualifies; otherwise none. The merged validity flag is false in every such case. -/
theorem c2_amended (pre t f : AState)
    (hst : (t.stored || f.stored) = true)
    (hnv : ¬(t.last_store_valid = true ∧ f.last_store_valid = true ∧
             t.last_store = f.last_store))
    (hch : ¬(t.last_store = pre.last_store ∧ f.last_store = pre.last_store)) :
    ((t.last_store ≠ pre.last_store ∧ t.last_store ≠ none ∧
        t.last_store_loaded = false) →
      (mergeIf pre t f).last_store = t.last_store) ∧
    (¬(t.last_store ≠ pre.last_store ∧ t.last_store ≠ none ∧
        t.last_store_loaded = false) →
      (f.last_store ≠ pre.last_store ∧ f.last_store ≠ none ∧
        f.last_store_loaded = false) →
      (mergeIf pre t f).last_store = f.last_store) ∧
    (¬(t.last_store ≠ pre.last_store ∧ t.last_store ≠ none ∧
        t.last_store_loaded = false) →
     ¬(f.last_store ≠ pre.last_store ∧ f.last_store ≠ none ∧
        f.last_store_loaded = false) →
      (mergeIf pre t f).last_store = none) ∧
    (mergeIf pre t f).last_store_valid = false := by
  unfold mergeIf
  simp only [hst]
  refine ⟨?_, ?_, ?_, ?_⟩ <;>
    · repeat' split
      all_goals simp_all

/-- Witness for the amended C2 at a concrete merge: with both branches eliminable, the true branch store is adopted. -/
theorem c2_amended_witness :
    (mergeIf initState c2t c2f).last_store = some ⟨4, 2⟩ :=
  (c2_amended initState c2t c2f rfl (by decide) (by decide)).1 (by decide)

/-- C3: a last atomic op flagged eliminable (once the walk completed and the dead-store stage does not fire) is erased if and only if the scan of the alloca parent block subtree — the whole tree region containing the slot scope, including statements outside the forward walk — finds no statement with the atomic as an operand. -/
theorem c3_atomic_erase_iff (a : AllocaInfo) (parent after : Block)
    (st : AState) (aid : SId)
    (hw : walkBlock a.sid a.ty initState after = .done st)
    (ha : st.last_atomic = some aid)
    (he : st.last_atomic_eliminable = true)
    (hns : st.last_store = none ∨ st.last_store_loaded = true) :
    runAlloca a parent after = .modified (.eraseAtomic aid) ↔
      anyUseB aid parent = false := by
  have halloca : ∀ x : RRes, x = runTailAlloca a st →
      x ≠ .modified (.eraseAtomic aid) := by
    intro x hx
    unfold runTailAlloca at hx
    by_cases hc : st.stored = false ∧ st.loaded = false
    · rw [if_pos hc] at hx
      subst hx
      simp
    · rw [if_neg hc] at hx
      subst hx
      simp
  have htail : runTailAtomic a parent st = .modified (.eraseAtomic aid) ↔
      anyUseB aid parent = false := by
    unfold runTailAtomic
    rw [ha]
    simp only [he, if_pos rfl]
    cases hu : anyUseB aid parent with
    | false => simp
    | true =>
        simp only [Bool.true_eq_false, if_false]
        constructor
        · intro hcontra
          exact absurd hcontra (halloca _ rfl)
        · intro hcontra
          exact absurd hcontra (by simp)
  have hra : runAlloca a parent after = runTailStore a parent st := by
    unfold runAlloca
    rw [hw]
  rw [hra]
  unfold runTailStore
  rcases hns with h | h
  · rw [h]
    exact htail
  · cases hls : st.last_store with
    | none => exact htail
    | some r =>
        rw [h]
        simpa using htail

/-- Witness for C3: in the example tree the atomic result is unused, so the run erases it. -/
theorem c3_witness :
    runAlloca ⟨1, 7, 1⟩ exC3 (exC3.drop 2) = .modified (.eraseAtomic 2) :=
  (c3_atomic_erase_iff ⟨1, 7, 1⟩ exC3 (exC3.drop 2) c3st 2
      rfl rfl rfl (Or.inl rfl)).mpr rfl

/-- C4: a regular load of the slot reached with no prior store or atomic op (stored is false), in a context that is not inside a loop that may contain stores, aborts the walk immediately with the zero-fold mutation carrying the slot declared type and the load lane width. -/
theorem c4_zero_fold (a : SId) (ty : Nat) (s : AState) (i : SId)
    (ptr : List LaneRef)
    (hreg : loadRegular a ptr = true) (hst : s.stored = false)
    (hlp : s.is_inside_loop ≠ .insideMayHaveStores) :
    walkStmt a ty s (.localLoad i ptr) =
      .modified (.zeroFold i ty ptr.length) := by
  unfold walkStmt visitLocalLoad loadFlagUpdate
  split <;> simp_all

/-- Witness for C4 at a concrete regular load. -/
theorem c4_witness :
    walkStmt 1 7 initState (.localLoad 2 [⟨1, 0⟩]) =
      .modified (.zeroFold 2 7 1) :=
  c4_zero_fold 1 7 initState 2 [⟨1, 0⟩] rfl rfl (by decide)

/-- C5: for `if c {store slot=V1} else {}; load slot` the walk ends with an invalid last store that the load marked loaded, and the whole pass performs no mutation: the load is not forwarded and the store is not deleted. -/
theorem c5_conditional_store :
    walkBlock 1 7 initState (exC5.drop 1) =
      .done { stored := true, loaded := true, last_store := some ⟨4, 2⟩,
              last_store_valid := false, last_store_loaded := true,
              last_atomic := none, last_atomic_eliminable := false,
              is_inside_loop := .outsideLoop } ∧
    optimizeLocalVariable 10 exC5 = some exC5 :=
  ⟨rfl, rfl⟩

/-- C6: when the body of a while, range-for or struct-for loop stores the slot, the state after visiting the loop has last_store_valid = false, so no load after the loop is ever forwarded from the in-loop store. -/
theorem c6_loop_store_never_forwarded (a : SId) (ty : Nat) (s : AState)
    (body : Block) (loop s' : AState)
    (hw : walkBlock a ty (loopInitState s) body = .done loop)
    (hst : loop.stored = true) :
    (∀ i, walkStmt a ty s (.whileStmt i body) = .done s' →
       s'.last_store_valid = false) ∧
    (∀ i lv lo hi, walkStmt a ty s (.rangeFor i lv lo hi body) = .done s' →
       s'.last_store_valid = false) ∧
    (∀ i lvs, walkStmt a ty s (.structFor i lvs body) = .done s' →
       s'.last_store_valid = false) := by
  refine ⟨?_, ?_, ?_⟩
  · intro i hres
    simp only [walkStmt, hw, WRes.bind] at hres
    rw [if_neg (by simp [needSecondWalk, hst])] at hres
    cases hres
    exact loopMerge_invalid _ _ _ hst
  · intro i lv lo hi hres
    simp only [walkStmt, hw, WRes.bind] at hres
    rw [if_neg (by simp [needSecondWalk, hst])] at hres
    cases hres
    exact loopMerge_invalid _ _ _ hst
  · intro i lvs hres
    simp only [walkStmt, hw, WRes.bind] at hres
    rw [if_neg (by simp [needSecondWalk, hst])] at hres
    cases hres
    exact loopMerge_invalid _ _ _ hst

/-- Witness for C6: a concrete while loop whose body stores the slot. -/
theorem c6_witness : c6res.last_store_valid = false :=
  (c6_loop_store_never_forwarded 1 7 initState [.localStore 4 1 2]
      c6loop c6res rfl rfl).1 3 rfl

/-- C7: one driver iteration either finds no mutation — the walk completes and the tree is returned unchanged — or applies exactly the one mutation signalled and restarts the whole walk on the mutated tree; and an analyzer run that signals a mutation marks its declaration as not finished (the visited set is returned exactly as it was when that run started). -/
theorem c7_one_mutation_per_walk :
    (∀ (n : Nat) (v : List SId) (t : Block),
      (∃ v', findSuffix t v t = .clean v' ∧ runDriver (n + 1) v t = some t) ∨
      (∃ v' m, findSuffix t v t = .found v' m ∧
         runDriver (n + 1) v t = runDriver n v' (applyMutation t m))) ∧
    (∀ (parent : Block) (v : List SId) (after : Block) (i : SId)
       (ty2 w : Nat) (v' : List SId) (m : Mutation),
      findStmt parent v after (.alloca i ty2 w) = .found v' m → v' = v) := by
  constructor
  · intro n v t
    cases h : findSuffix t v t with
    | clean v' => exact Or.inl ⟨v', rfl, by simp [runDriver, h]⟩
    | found v' m => exact Or.inr ⟨v', m, rfl, by simp [runDriver, h]⟩
  · intro parent v after i ty2 w v' m h
    simp only [findStmt] at h
    split at h
    · cases h
    · cases hr : runAlloca ⟨i, ty2, w⟩ parent after with
      | modified m2 => rw [hr] at h; cases h; rfl
      | clean => rw [hr] at h; cases h

/-- Witness for C7: the first driver iteration on the example applies the dead-store erase and restarts. -/
theorem c7_witness :
    runDriver 3 [] exC7 = runDriver 2 [] (applyMutation exC7 (.eraseStore 2)) := by
  rcases (c7_one_mutation_per_walk.1 2 [] exC7) with ⟨v', hclean, _⟩ | ⟨v', m, hfound, heq⟩
  · cases (show FRes.found [] (Mutation.eraseStore 2) = FRes.clean v' from hclean)
  · cases (show FRes.found [] (Mutation.eraseStore 2) = FRes.found v' m from hfound)
    exact heq

/-- Counterexample to C8: the pass is not idempotent. On the example tree one run erases the dead store on slot B and then slot B itself, but leaves the atomic op on slot A (A was marked finished while the store still referenced the atomic); a second run erases the atomic and the declaration of A, producing a strictly different tree. -/
theorem c8_counterexample :
    optimizeLocalVariable 10 exC8 = some exC8once ∧
    optimizeLocalVariable 10 exC8once = some exC8twice ∧
    exC8once ≠ exC8twice := by
  refine ⟨rfl, rfl, fun h => ?_⟩
  exact absurd (congrArg List.length h) (by decide)

/-- C8 (amended): running the pass twice yields the same tree as running it once whenever the first complete driver pass performs no mutation (then the pass returns the tree unchanged and is idempotent on it); in general a second run may perform further mutations, as the counterexample shows. -/
theorem c8_amended (t : Block) (fuel : Nat) (v' : List SId)
    (h : findSuffix t [] t = .clean v') :
    optimizeLocalVariable (fuel + 1) t = some t ∧
    (optimizeLocalVariable (fuel + 1) t).bind (optimizeLocalVariable (fuel + 1)) =
      optimizeLocalVariable (fuel + 1) t := by
  have h1 : optimizeLocalVariable (fuel + 1) t = some t := by
    unfold optimizeLocalVariable runDriver
    rw [h]
  exact ⟨h1, by rw [h1, Option.some_bind, h1]⟩

/-- Witness for the amended C8 on a tree the pass leaves unchanged. -/
theorem c8_amended_witness :
    optimizeLocalVariable 1 [Stmt.constStmt 0 7 1] = some [Stmt.constStmt 0 7 1] :=
  (c8_amended [Stmt.constStmt 0 7 1] 0 [] rfl).1

/-- C9: the fixed-point driver terminates. Every mutation the driver applies strictly decreases the number of alloca/store/load/atomic statements in the tree, so with fuel exceeding that count the retry loop always reaches a clean pass instead of exhausting its fuel. -/
theorem c9_driver_terminates (t : Block) (v : List SId) (n : Nat) :
    (∀ v' m, findSuffix t v t = .found v' m →
       countB (applyMutation t m) < countB t) ∧
    (countB t < n → runDriver n v t ≠ none) :=
  ⟨fun v' m h => applyMutation_lt t m (findSuffix_ok t t v t (fun y hy => hy) v' m h),
   fun h => runDriver_succeeds n v t h⟩

/-- Witness for C9 on a concrete tree. -/
theorem c9_witness : countB exC9 < 4 ∧ runDriver 4 [] exC9 ≠ none :=
  ⟨by decide, (c9_driver_terminates exC9 [] 4).2 (by decide)⟩

/-- C10: the invariant that last_store_valid implies a non-null last_store holds in the constructor state and is preserved by every completed walk of any statement sequence, so the store-forwarding action, which fires only under last_store_valid, never dereferences a null last_store. -/
theorem c10_valid_store_nonnull :
    InvLS initState ∧
    ∀ (a : SId) (ty : Nat) (s : AState) (b : Block) (s' : AState),
      InvLS s → walkBlock a ty s b = .done s' → InvLS s' :=
  ⟨(by intro hv; cases hv), fun a ty s b s' hs h => walkBlock_inv a ty s b s' h hs⟩

/-- Witness for C10 on the state after walking a single store. -/
theorem c10_witness : c10res.last_store.isSome = true :=
  c10_valid_store_nonnull.2 1 7 initState [.localStore 4 1 2] c10res
    (by intro hv; cases hv) rfl rfl

end AllocaOpt
